import Mathlib

set_option linter.unusedVariables false

/-
Verification of the event-store core of `eventually-rs`.

The development shallowly embeds the in-memory reference backend of
`src/eventually-v0-5-0/src/test/store.rs`:

* `Version` (a `u64` newtype in `version::Version`) is modelled as `Nat`;
* the `HashMap<String, PersistedEvents<Id, Evt>>` backend is modelled as an
  association list keyed by the stream id's string form (`Display`/`ToString`);
* the mutable store is threaded explicitly: `append` returns the result
  together with the post-state, the early-return conflict path returning the
  input state unchanged;
* `stream` returns the finite list of `Ok`-wrapped persisted events that the
  boxed stream would yield.
-/

namespace Eventually

/-- A stream version (`version::Version`, a `u64` newtype); `0` means the
stream is empty or absent. Modelled as a natural number. -/
abbrev Version := Nat

/-- `version::ConflictError { expected, actual }`, returned by `append` when
the optimistic-concurrency check fails. -/
structure ConflictError where
  expected : Nat
  actual : Nat
  deriving DecidableEq

/-- `event::VersionSelect`: read-selection policy. Both variants are exercised
by `InMemoryEventStore::stream` (store.rs lines 63-66). -/
inductive VersionSelect where
  | All : VersionSelect
  | From : Nat → VersionSelect
  deriving DecidableEq

/-- `event::StreamVersionExpected`: the optimistic-concurrency precondition of
`append`. `Exact` appears in store.rs line 91; the no-constraint variant `Any`
is modelled from the spec: "no constraint, or exact version V must match the
stream's current last version". -/
inductive StreamVersionExpected where
  | Any : StreamVersionExpected
  | Exact : Nat → StreamVersionExpected
  deriving DecidableEq

/-- `event::Persisted<Id, Evt>`: a domain event together with the stream id it
was appended to and the version assigned at persistence time. -/
structure Persisted (Id E : Type) where
  stream_id : Id
  version : Nat
  inner : E
  deriving DecidableEq

/-- `event::PersistedEvents<Id, Evt>` = `Vec<Persisted<Id, Evt>>`. -/
abbrev PersistedEvents (Id E : Type) := List (Persisted Id E)

/-- `InMemoryEventStoreBackend<Id, Evt>` (store.rs lines 17-20): the
`HashMap<String, PersistedEvents<Id, Evt>>`, modelled as an association list. -/
structure InMemoryEventStoreBackend (Id E : Type) where
  event_streams : List (String × PersistedEvents Id E)
  deriving DecidableEq

/-- `HashMap::get` on the association-list model. -/
def hmGet {Id E : Type} (m : List (String × PersistedEvents Id E)) (k : String) :
    Option (PersistedEvents Id E) :=
  match m with
  | [] => none
  | (k', v) :: rest => if k' = k then some v else hmGet rest k

/-- `HashMap::entry(k).and_modify(|es| es.append(&mut new)).or_insert_with(|| new)`
(store.rs lines 116-120): extend the entry's vector in place, or insert the
new vector when the key is absent. -/
def hmEntryAppend {Id E : Type} (m : List (String × PersistedEvents Id E)) (k : String)
    (new : PersistedEvents Id E) : List (String × PersistedEvents Id E) :=
  match m with
  | [] => [(k, new)]
  | (k', v) :: rest =>
    if k' = k then (k', v ++ new) :: rest else (k', v) :: hmEntryAppend rest k new

/-- `InMemoryEventStore<Id, Evt>` (store.rs lines 30-34): a process-wide
counter (`global_offset: Arc<AtomicU64>`) next to the lock-protected backend. -/
structure InMemoryEventStore (Id E : Type) where
  global_offset : Nat
  backend : InMemoryEventStoreBackend Id E
  deriving DecidableEq

/-- `InMemoryEventStore::default()`: counter at zero, no stream entries. -/
def InMemoryEventStore.default (Id E : Type) : InMemoryEventStore Id E :=
  { global_offset := 0, backend := { event_streams := [] } }

/-- `type StreamError = Infallible` (store.rs line 44): the uninhabited read
error type of the reference backend. -/
inductive Infallible : Type

instance : DecidableEq Infallible := fun a _ => nomatch a

instance {ε α : Type} [DecidableEq ε] [DecidableEq α] : DecidableEq (Except ε α)
  | Except.ok x, Except.ok y =>
    if h : x = y then isTrue (by rw [h])
    else isFalse (by intro hc; cases hc; exact h rfl)
  | Except.ok _, Except.error _ => isFalse (by intro hc; cases hc)
  | Except.error _, Except.ok _ => isFalse (by intro hc; cases hc)
  | Except.error e, Except.error f =>
    if h : e = f then isTrue (by rw [h])
    else isFalse (by intro hc; cases hc; exact h rfl)

/-- Discriminator for `Result`/`Except` success, as used by the conflict
tests: `true` exactly on `Ok` values. -/
def isOk {ε α : Type} : Except ε α → Bool
  | Except.ok _ => true
  | Except.error _ => false

/-- store.rs lines 84-89: the stream's current last version — the version of
the last event of the entry for `key`, or `Version::default()` (0) when the
entry is absent or empty. -/
def lastStreamVersion {Id E : Type} (s : InMemoryEventStore Id E) (key : String) : Nat :=
  (((hmGet s.backend.event_streams key).bind List.getLast?).map Persisted.version).getD 0

/-- The persisted events currently stored under `key` (empty when absent). -/
def streamOf {Id E : Type} (s : InMemoryEventStore Id E) (key : String) : PersistedEvents Id E :=
  (hmGet s.backend.event_streams key).getD []

/-- `InMemoryEventStore::stream` (store.rs lines 47-69): snapshot the events
stored for `id` (empty vector when absent), keep those matching `select`, and
yield each one wrapped in `Ok`. -/
def InMemoryEventStore.stream {Id E : Type} [ToString Id] (s : InMemoryEventStore Id E)
    (id : Id) (select : VersionSelect) : List (Except Infallible (Persisted Id E)) :=
  (((hmGet s.backend.event_streams (toString id)).getD []).filter fun evt =>
      match select with
      | VersionSelect.All => true
      | VersionSelect.From v => decide (v ≤ evt.version)).map Except.ok

/-- store.rs lines 100-109: enumerate the incoming events and assign the
`i`-th one the version `last + i + 1`. -/
def mkPersisted {Id E : Type} (id : Id) (last : Nat) (events : List E) :
    PersistedEvents Id E :=
  events.enum.map fun p =>
    { stream_id := id, version := last + p.1 + 1, inner := p.2 }

/-- store.rs lines 100-122, the write path once the version check has passed:
persist the events, compute the new last version (`Version::default()` = 0
when nothing was persisted), extend or create the stream entry, and return
the new last version. -/
def appendUnchecked {Id E : Type} (s : InMemoryEventStore Id E) (id : Id) (key : String)
    (last : Nat) (events : List E) :
    Except ConflictError Version × InMemoryEventStore Id E :=
  let persisted_events := mkPersisted id last events
  let new_last := ((persisted_events.getLast?).map Persisted.version).getD 0
  (Except.ok new_last,
    { s with
      backend := { event_streams := hmEntryAppend s.backend.event_streams key persisted_events } })

/-- `InMemoryEventStore::append` (store.rs lines 71-123): compute the current
last version of the stream keyed by `id.to_string()`, perform the
optimistic-concurrency check — the early `return Err(ConflictError)` leaves
the backend untouched — and otherwise persist the events. -/
def InMemoryEventStore.append {Id E : Type} [ToString Id] (s : InMemoryEventStore Id E)
    (id : Id) (version_check : StreamVersionExpected) (events : List E) :
    Except ConflictError Version × InMemoryEventStore Id E :=
  let key := toString id
  let last := lastStreamVersion s key
  match version_check with
  | StreamVersionExpected.Exact expected =>
    if last ≠ expected then
      (Except.error { expected := expected, actual := last }, s)
    else
      appendUnchecked s id key last events
  | StreamVersionExpected.Any => appendUnchecked s id key last events

/-- The `append` precondition holds for the given current last version:
no constraint, or the exact expected version matches. -/
def versionCheckPasses (last : Nat) : StreamVersionExpected → Bool
  | StreamVersionExpected.Any => true
  | StreamVersionExpected.Exact v => last == v

/-- Store states reachable from the default (empty) store by `append` calls. -/
inductive Reachable {Id E : Type} [ToString Id] : InMemoryEventStore Id E → Prop where
  | empty : Reachable (InMemoryEventStore.default Id E)
  | step (s : InMemoryEventStore Id E) (id : Id) (vc : StreamVersionExpected)
      (events : List E) : Reachable s → Reachable (s.append id vc events).2

/-- Per-stream version invariant: the versions stored under any key are
exactly the contiguous sequence `1..N` (no gaps, no duplicates). -/
def storeInvariant {Id E : Type} (s : InMemoryEventStore Id E) : Prop :=
  ∀ key : String,
    (streamOf s key).map Persisted.version = List.range' 1 (streamOf s key).length

/-- The default store over string ids and string events, as in the tests. -/
def emptyStore : InMemoryEventStore String String := InMemoryEventStore.default String String

/-- A store holding two events on stream "a", used as a concrete scenario. -/
def storeA : InMemoryEventStore String String :=
  (emptyStore.append "a" StreamVersionExpected.Any ["x", "y"]).2

theorem hmGet_entryAppend_self {Id E : Type} (m : List (String × PersistedEvents Id E))
    (k : String) (new : PersistedEvents Id E) :
    hmGet (hmEntryAppend m k new) k = some ((hmGet m k).getD [] ++ new) := by
  induction m with
  | nil => simp [hmGet, hmEntryAppend]
  | cons hd tl ih =>
    obtain ⟨k', v⟩ := hd
    by_cases h : k' = k
    · simp [hmGet, hmEntryAppend, h]
    · simp [hmGet, hmEntryAppend, h, ih]

theorem hmGet_entryAppend_ne {Id E : Type} (m : List (String × PersistedEvents Id E))
    (k k' : String) (new : PersistedEvents Id E) (h : k' ≠ k) :
    hmGet (hmEntryAppend m k new) k' = hmGet m k' := by
  have h' : ¬ k = k' := fun hh => h hh.symm
  induction m with
  | nil => simp [hmGet, hmEntryAppend, h']
  | cons hd tl ih =>
    obtain ⟨k0, v⟩ := hd
    by_cases hk : k0 = k
    · simp [hmGet, hmEntryAppend, hk, h']
    · simp [hmGet, hmEntryAppend, hk, ih]

theorem enumFrom_mkPersisted_version {Id E : Type} (id : Id) (last : Nat) :
    ∀ (l : List E) (n : Nat),
      ((l.enumFrom n).map fun p =>
          ({ stream_id := id, version := last + p.1 + 1, inner := p.2 } : Persisted Id E)).map
        Persisted.version = List.range' (last + n + 1) l.length := by
  intro l
  induction l with
  | nil => intro n; rfl
  | cons a t ih =>
    intro n
    have h2 : last + (n + 1) + 1 = last + n + 1 + 1 := by omega
    simp [List.range'_succ, ih (n + 1), h2]

theorem mkPersisted_version {Id E : Type} (id : Id) (last : Nat) (l : List E) :
    (mkPersisted id last l).map Persisted.version = List.range' (last + 1) l.length := by
  have h := enumFrom_mkPersisted_version id last l 0
  simpa [mkPersisted, List.enum] using h

theorem newLast_ne_nil {Id E : Type} (id : Id) (last : Nat) (l : List E) (h : l ≠ []) :
    (((mkPersisted id last l).getLast?).map Persisted.version).getD 0 = last + l.length := by
  rw [← List.getLast?_map, mkPersisted_version]
  obtain ⟨m, hm⟩ : ∃ m, l.length = m + 1 :=
    ⟨l.length - 1, by cases l with | nil => exact absurd rfl h | cons a t => simp⟩
  rw [hm, List.range'_concat, List.getLast?_concat]
  simp
  omega

theorem append_eq_conflict {Id E : Type} [ToString Id] (s : InMemoryEventStore Id E)
    (id : Id) (V : Nat) (events : List E)
    (h : lastStreamVersion s (toString id) ≠ V) :
    s.append id (StreamVersionExpected.Exact V) events =
      (Except.error { expected := V, actual := lastStreamVersion s (toString id) }, s) := by
  simp [InMemoryEventStore.append, h]

theorem append_eq_unchecked {Id E : Type} [ToString Id] (s : InMemoryEventStore Id E)
    (id : Id) (vc : StreamVersionExpected) (events : List E)
    (h : versionCheckPasses (lastStreamVersion s (toString id)) vc = true) :
    s.append id vc events =
      appendUnchecked s id (toString id) (lastStreamVersion s (toString id)) events := by
  cases vc with
  | Any => rfl
  | Exact v =>
    have hv : lastStreamVersion s (toString id) = v := by
      simpa [versionCheckPasses] using h
    simp [InMemoryEventStore.append, hv]

theorem appendUnchecked_fst {Id E : Type} (s : InMemoryEventStore Id E) (id : Id)
    (key : String) (last : Nat) (events : List E) :
    (appendUnchecked s id key last events).1 =
      Except.ok ((((mkPersisted id last events).getLast?).map Persisted.version).getD 0) := rfl

theorem appendUnchecked_snd_streams {Id E : Type} (s : InMemoryEventStore Id E) (id : Id)
    (key : String) (last : Nat) (events : List E) :
    (appendUnchecked s id key last events).2.backend.event_streams =
      hmEntryAppend s.backend.event_streams key (mkPersisted id last events) := rfl

theorem appendUnchecked_snd_offset {Id E : Type} (s : InMemoryEventStore Id E) (id : Id)
    (key : String) (last : Nat) (events : List E) :
    (appendUnchecked s id key last events).2.global_offset = s.global_offset := rfl

theorem streamOf_appendUnchecked_self {Id E : Type} (s : InMemoryEventStore Id E) (id : Id)
    (key : String) (last : Nat) (events : List E) :
    streamOf (appendUnchecked s id key last events).2 key =
      streamOf s key ++ mkPersisted id last events := by
  simp [streamOf, appendUnchecked_snd_streams, hmGet_entryAppend_self]

theorem streamOf_appendUnchecked_ne {Id E : Type} (s : InMemoryEventStore Id E) (id : Id)
    (key k' : String) (last : Nat) (events : List E) (h : k' ≠ key) :
    streamOf (appendUnchecked s id key last events).2 k' = streamOf s k' := by
  simp [streamOf, appendUnchecked_snd_streams, hmGet_entryAppend_ne _ _ _ _ h]

theorem lastStreamVersion_eq {Id E : Type} (s : InMemoryEventStore Id E) (key : String) :
    lastStreamVersion s key = (((streamOf s key).getLast?).map Persisted.version).getD 0 := by
  cases hq : hmGet s.backend.event_streams key <;>
    simp [lastStreamVersion, streamOf, hq]

theorem lastStreamVersion_of_invariant {Id E : Type} (s : InMemoryEventStore Id E)
    (key : String)
    (h : (streamOf s key).map Persisted.version = List.range' 1 (streamOf s key).length) :
    lastStreamVersion s key = (streamOf s key).length := by
  rw [lastStreamVersion_eq, ← List.getLast?_map, h]
  generalize (streamOf s key).length = N
  cases N with
  | zero => rfl
  | succ m =>
    rw [List.range'_concat, List.getLast?_concat]
    simp
    omega

theorem lastStreamVersion_after_unchecked {Id E : Type} (s : InMemoryEventStore Id E)
    (id : Id) (key : String) (last : Nat) (events : List E) (h : events ≠ []) :
    lastStreamVersion (appendUnchecked s id key last events).2 key = last + events.length := by
  rw [lastStreamVersion_eq, streamOf_appendUnchecked_self, ← List.getLast?_map,
    List.map_append, mkPersisted_version]
  obtain ⟨m, hm⟩ : ∃ m, events.length = m + 1 :=
    ⟨events.length - 1, by cases events with | nil => exact absurd rfl h | cons a t => simp⟩
  rw [hm, List.range'_concat, ← List.append_assoc, List.getLast?_concat]
  simp
  omega

theorem mkPersisted_length {Id E : Type} (id : Id) (last : Nat) (events : List E) :
    (mkPersisted id last events).length = events.length := by
  simp [mkPersisted]

theorem storeInvariant_appendUnchecked {Id E : Type} [ToString Id]
    (s : InMemoryEventStore Id E) (hs : storeInvariant s) (id : Id) (events : List E) :
    storeInvariant
      (appendUnchecked s id (toString id) (lastStreamVersion s (toString id)) events).2 := by
  intro key
  by_cases hk : key = toString id
  · subst hk
    have hlast := lastStreamVersion_of_invariant s (toString id) (hs (toString id))
    rw [streamOf_appendUnchecked_self, List.map_append, hs (toString id), mkPersisted_version,
      hlast, List.length_append]
    have hc : (streamOf s (toString id)).length + 1 = 1 + (streamOf s (toString id)).length :=
      Nat.add_comm _ 1
    rw [hc, List.range'_append_1, mkPersisted_length]
    congr 1
    exact Nat.add_comm _ _
  · rw [streamOf_appendUnchecked_ne s id (toString id) key _ events hk]
    exact hs key

theorem storeInvariant_append {Id E : Type} [ToString Id] (s : InMemoryEventStore Id E)
    (hs : storeInvariant s) (id : Id) (vc : StreamVersionExpected) (events : List E) :
    storeInvariant (s.append id vc events).2 := by
  cases hvc : versionCheckPasses (lastStreamVersion s (toString id)) vc with
  | true =>
    rw [append_eq_unchecked s id vc events hvc]
    exact storeInvariant_appendUnchecked s hs id events
  | false =>
    cases vc with
    | Any => simp [versionCheckPasses] at hvc
    | Exact v =>
      have hne : lastStreamVersion s (toString id) ≠ v := by
        simpa [versionCheckPasses] using hvc
      rw [append_eq_conflict s id v events hne]
      exact hs

theorem reachable_storeInvariant {Id E : Type} [ToString Id] (s : InMemoryEventStore Id E)
    (hs : Reachable s) : storeInvariant s := by
  induction hs with
  | empty =>
    intro key
    rfl
  | step s id vc events hr ih => exact storeInvariant_append s ih id vc events

theorem append_ok_facts {Id E : Type} [ToString Id] (s : InMemoryEventStore Id E)
    (id : Id) (vc : StreamVersionExpected) (events : List E)
    (hp : versionCheckPasses (lastStreamVersion s (toString id)) vc = true)
    (hne : events ≠ []) :
    (s.append id vc events).1 =
        Except.ok (lastStreamVersion s (toString id) + events.length) ∧
      streamOf (s.append id vc events).2 (toString id) =
        streamOf s (toString id) ++
          mkPersisted id (lastStreamVersion s (toString id)) events ∧
      lastStreamVersion (s.append id vc events).2 (toString id) =
        lastStreamVersion s (toString id) + events.length := by
  rw [append_eq_unchecked s id vc events hp]
  exact ⟨by rw [appendUnchecked_fst, newLast_ne_nil id _ events hne],
    streamOf_appendUnchecked_self s id (toString id) _ events,
    lastStreamVersion_after_unchecked s id (toString id) _ events hne⟩

theorem filterTrue {α : Type} (l : List α) : l.filter (fun _ => true) = l := by
  induction l with
  | nil => rfl
  | cons a t ih => simp [List.filter, ih]

theorem stream_eq_filter {Id E : Type} [ToString Id] (s : InMemoryEventStore Id E)
    (id : Id) (select : VersionSelect) :
    s.stream id select =
      ((streamOf s (toString id)).filter fun evt =>
        match select with
        | VersionSelect.All => true
        | VersionSelect.From v => decide (v ≤ evt.version)).map Except.ok := rfl

theorem stream_all_eq {Id E : Type} [ToString Id] (s : InMemoryEventStore Id E) (id : Id) :
    s.stream id VersionSelect.All = (streamOf s (toString id)).map Except.ok := by
  rw [stream_eq_filter]
  rw [show ((streamOf s (toString id)).filter fun evt =>
      match VersionSelect.All with
      | VersionSelect.All => true
      | VersionSelect.From v => decide (v ≤ evt.version)) =
        (streamOf s (toString id)).filter fun _ => true from rfl]
  rw [filterTrue]

theorem stream_from_eq {Id E : Type} [ToString Id] (s : InMemoryEventStore Id E)
    (id : Id) (v : Nat) :
    s.stream id (VersionSelect.From v) =
      ((streamOf s (toString id)).filter fun evt => decide (v ≤ evt.version)).map
        Except.ok := rfl

theorem mkPersisted_getElem {Id E : Type} (id : Id) (last : Nat) (events : List E)
    (i : Nat) :
    (mkPersisted id last events)[i]? =
      (events[i]?).map fun e =>
        ({ stream_id := id, version := last + i + 1, inner := e } : Persisted Id E) := by
  simp [mkPersisted, List.getElem?_enum]
  cases events[i]? <;> rfl

/-- C1: for every store state, stream identifier, expected version `V` and
events, if the stream's current last version (0 when the stream is absent,
otherwise the version of its last event) differs from `V`, then `append` with
precondition `Exact V` returns `ConflictError { expected := V, actual :=
current }` and leaves the entire store content exactly as it was. -/
theorem append_conflict_preserves_store {Id E : Type} [ToString Id]
    (s : InMemoryEventStore Id E) (id : Id) (V : Nat) (events : List E)
    (h : lastStreamVersion s (toString id) ≠ V) :
    s.append id (StreamVersionExpected.Exact V) events =
      (Except.error { expected := V, actual := lastStreamVersion s (toString id) }, s) :=
  append_eq_conflict s id V events h

theorem append_conflict_preserves_store_witness :
    lastStreamVersion storeA "a" ≠ 5 ∧
      storeA.append "a" (StreamVersionExpected.Exact 5) ["z"] =
        (Except.error { expected := 5, actual := lastStreamVersion storeA "a" }, storeA) :=
  ⟨by decide, append_conflict_preserves_store storeA "a" 5 ["z"] (by decide)⟩

/-- C2 counterexample: a successful `append` does not always return the new
last version of the stream. Appending an empty batch to stream "a" of
`storeA` (whose last version is 2) succeeds and returns `Version 0`, while the
stream's last version after the call is still 2. -/
theorem empty_append_returns_zero_not_new_last :
    (storeA.append "a" StreamVersionExpected.Any ([] : List String)).1 = Except.ok 0 ∧
      lastStreamVersion (storeA.append "a" StreamVersionExpected.Any ([] : List String)).2 "a" =
        2 ∧
      (0 : Nat) ≠ 2 := by decide

/-- C2 amended: whenever `append` succeeds and the input batch is nonempty,
the `i`-th input event is persisted with version `current_last + i + 1`
(`mkPersisted`), the persisted events are appended to the end of the stream in
input order (creating the stream if absent), and the call returns
`current_last + events.length`, which is the stream's new last version. (When
the batch is empty the call returns `Version 0` instead — see the
counterexample.) -/
theorem append_success_persists {Id E : Type} [ToString Id] (s : InMemoryEventStore Id E)
    (id : Id) (vc : StreamVersionExpected) (events : List E)
    (hp : versionCheckPasses (lastStreamVersion s (toString id)) vc = true)
    (hne : events ≠ []) :
    (s.append id vc events).1 =
        Except.ok (lastStreamVersion s (toString id) + events.length) ∧
      streamOf (s.append id vc events).2 (toString id) =
        streamOf s (toString id) ++
          mkPersisted id (lastStreamVersion s (toString id)) events ∧
      (∀ i : Nat,
        (mkPersisted id (lastStreamVersion s (toString id)) events)[i]? =
          (events[i]?).map fun e =>
            ({ stream_id := id, version := lastStreamVersion s (toString id) + i + 1,
               inner := e } : Persisted Id E)) ∧
      lastStreamVersion (s.append id vc events).2 (toString id) =
        lastStreamVersion s (toString id) + events.length := by
  obtain ⟨h1, h2, h3⟩ := append_ok_facts s id vc events hp hne
  exact ⟨h1, h2, mkPersisted_getElem id _ events, h3⟩

theorem append_success_persists_witness :
    (versionCheckPasses (lastStreamVersion storeA "a") StreamVersionExpected.Any = true ∧
        (["p", "q"] : List String) ≠ []) ∧
      ((storeA.append "a" StreamVersionExpected.Any ["p", "q"]).1 =
          Except.ok (lastStreamVersion storeA "a" + (["p", "q"] : List String).length) ∧
        streamOf (storeA.append "a" StreamVersionExpected.Any ["p", "q"]).2 "a" =
          streamOf storeA "a" ++ mkPersisted "a" (lastStreamVersion storeA "a") ["p", "q"] ∧
        (∀ i : Nat,
          (mkPersisted "a" (lastStreamVersion storeA "a") ["p", "q"])[i]? =
            ((["p", "q"] : List String)[i]?).map fun e =>
              ({ stream_id := "a", version := lastStreamVersion storeA "a" + i + 1,
                 inner := e } : Persisted String String)) ∧
        lastStreamVersion (storeA.append "a" StreamVersionExpected.Any ["p", "q"]).2 "a" =
          lastStreamVersion storeA "a" + (["p", "q"] : List String).length) :=
  ⟨⟨rfl, by decide⟩,
    append_success_persists storeA "a" StreamVersionExpected.Any ["p", "q"] rfl (by decide)⟩

/-- C3 counterexample: the versions returned by successful appends to one
stream are not always strictly increasing. From the empty store, a first
successful append of one event to "a" returns version 1, and a second
successful append (of an empty batch) returns version 0, which is not greater
than 1. -/
theorem empty_append_breaks_returned_monotonicity :
    ((emptyStore.append "a" StreamVersionExpected.Any ["e"]).1 = Except.ok 1) ∧
      (((emptyStore.append "a" StreamVersionExpected.Any ["e"]).2.append "a"
          StreamVersionExpected.Any ([] : List String)).1 = Except.ok 0) ∧
      ¬ (1 : Nat) < 0 := by decide

/-- C3 amended: in every store state reachable from the empty store, the
persisted versions of each stream form exactly the contiguous sequence
`1..N` (`storeInvariant`, preserved by every append, conflicting or not); and
every successful append of a *nonempty* batch returns
`current_last + batch size` — strictly greater than the stream's previous
last version, and equal to its new last version — so the versions returned by
successful nonempty appends to one stream are strictly increasing, starting
at the batch size (first event at version 1) for the first of them. -/
theorem version_invariant_and_monotonicity {Id E : Type} [ToString Id]
    (s : InMemoryEventStore Id E) (hs : Reachable s) :
    storeInvariant s ∧
      ∀ (id : Id) (vc : StreamVersionExpected) (events : List E),
        versionCheckPasses (lastStreamVersion s (toString id)) vc = true → events ≠ [] →
          (s.append id vc events).1 =
              Except.ok (lastStreamVersion s (toString id) + events.length) ∧
            lastStreamVersion s (toString id) <
              lastStreamVersion (s.append id vc events).2 (toString id) ∧
            lastStreamVersion (s.append id vc events).2 (toString id) =
              lastStreamVersion s (toString id) + events.length := by
  refine ⟨reachable_storeInvariant s hs, fun id vc events hp hne => ?_⟩
  obtain ⟨h1, h2, h3⟩ := append_ok_facts s id vc events hp hne
  refine ⟨h1, ?_, h3⟩
  rw [h3]
  have hpos : 0 < events.length := List.length_pos.mpr hne
  omega

theorem version_invariant_and_monotonicity_witness :
    Reachable storeA ∧
      (storeInvariant storeA ∧
        ∀ (id : String) (vc : StreamVersionExpected) (events : List String),
          versionCheckPasses (lastStreamVersion storeA (toString id)) vc = true →
            events ≠ [] →
              (storeA.append id vc events).1 =
                  Except.ok (lastStreamVersion storeA (toString id) + events.length) ∧
                lastStreamVersion storeA (toString id) <
                  lastStreamVersion (storeA.append id vc events).2 (toString id) ∧
                lastStreamVersion (storeA.append id vc events).2 (toString id) =
                  lastStreamVersion storeA (toString id) + events.length) :=
  ⟨Reachable.step emptyStore "a" StreamVersionExpected.Any ["x", "y"] Reachable.empty,
    version_invariant_and_monotonicity storeA
      (Reachable.step emptyStore "a" StreamVersionExpected.Any ["x", "y"] Reachable.empty)⟩

/-- C4: starting from the empty store, `append(S, Exact 0, events)` returns
`Ok events.length`, and a subsequent `stream(S, All)` yields exactly the
persisted batch — the input events in input order with versions `1..k`. -/
theorem append_then_stream_all {Id E : Type} [ToString Id] (S : Id) (events : List E) :
    ((InMemoryEventStore.default Id E).append S (StreamVersionExpected.Exact 0) events).1 =
        Except.ok events.length ∧
      ((InMemoryEventStore.default Id E).append S (StreamVersionExpected.Exact 0)
            events).2.stream S VersionSelect.All =
        (mkPersisted S 0 events).map Except.ok ∧
      (mkPersisted S 0 events).map Persisted.version = List.range' 1 events.length := by
  have hp : versionCheckPasses
      (lastStreamVersion (InMemoryEventStore.default Id E) (toString S))
      (StreamVersionExpected.Exact 0) = true := rfl
  rw [append_eq_unchecked (InMemoryEventStore.default Id E) S
    (StreamVersionExpected.Exact 0) events hp]
  have h0 : lastStreamVersion (InMemoryEventStore.default Id E) (toString S) = 0 := rfl
  refine ⟨?_, ?_, mkPersisted_version S 0 events⟩
  · rw [appendUnchecked_fst]
    cases events with
    | nil => rfl
    | cons a t =>
      rw [newLast_ne_nil S _ (a :: t) (by simp), h0, Nat.zero_add]
  · rw [stream_all_eq, streamOf_appendUnchecked_self]
    rfl

theorem append_then_stream_all_witness :
    ((InMemoryEventStore.default String String).append "stream:test"
          (StreamVersionExpected.Exact 0) ["event-1", "event-2", "event-3"]).1 =
        Except.ok (["event-1", "event-2", "event-3"] : List String).length ∧
      ((InMemoryEventStore.default String String).append "stream:test"
            (StreamVersionExpected.Exact 0)
            ["event-1", "event-2", "event-3"]).2.stream "stream:test" VersionSelect.All =
        (mkPersisted "stream:test" 0 ["event-1", "event-2", "event-3"]).map Except.ok ∧
      (mkPersisted "stream:test" 0
            (["event-1", "event-2", "event-3"] : List String)).map Persisted.version =
        List.range' 1 (["event-1", "event-2", "event-3"] : List String).length :=
  append_then_stream_all "stream:test" ["event-1", "event-2", "event-3"]

theorem streamOf_versions_pairwise {Id E : Type} (s : InMemoryEventStore Id E)
    (key : String) (h : storeInvariant s) :
    List.Pairwise (· < ·) ((streamOf s key).map Persisted.version) := by
  rw [h key]
  exact List.pairwise_lt_range' 1 _

/-- C5: for every reachable store state, `stream(S, From v)` yields exactly
the subsequence of S's persisted events whose version is at least `v`, their
versions in strictly ascending order; and `From (last + 1)` — one past the
stream's last version, i.e. `k + 1` after `k` appended events — yields the
empty sequence. -/
theorem stream_from_subsequence {Id E : Type} [ToString Id] (s : InMemoryEventStore Id E)
    (hs : Reachable s) (id : Id) (v : Nat) :
    s.stream id (VersionSelect.From v) =
        ((streamOf s (toString id)).filter fun evt => decide (v ≤ evt.version)).map
          Except.ok ∧
      List.Pairwise (· < ·)
        (((streamOf s (toString id)).filter fun evt => decide (v ≤ evt.version)).map
          Persisted.version) ∧
      s.stream id (VersionSelect.From (lastStreamVersion s (toString id) + 1)) = [] := by
  have hinv := reachable_storeInvariant s hs
  refine ⟨stream_from_eq s id v, ?_, ?_⟩
  · have hpw := streamOf_versions_pairwise s (toString id) hinv
    have hsub : List.Sublist
        (((streamOf s (toString id)).filter fun evt => decide (v ≤ evt.version)).map
          Persisted.version)
        ((streamOf s (toString id)).map Persisted.version) :=
      (List.filter_sublist _).map Persisted.version
    exact List.Pairwise.sublist hsub hpw
  · rw [stream_from_eq]
    have hlast := lastStreamVersion_of_invariant s (toString id) (hinv (toString id))
    have hfil : ((streamOf s (toString id)).filter fun evt =>
        decide (lastStreamVersion s (toString id) + 1 ≤ evt.version)) = [] := by
      rw [List.filter_eq_nil_iff]
      intro a ha
      have hmem : a.version ∈ (streamOf s (toString id)).map Persisted.version :=
        List.mem_map_of_mem Persisted.version ha
      rw [hinv (toString id), List.mem_range'] at hmem
      obtain ⟨i, hi, hai⟩ := hmem
      simp only [decide_eq_true_eq]
      omega
    rw [hfil]
    rfl

theorem stream_from_subsequence_witness :
    Reachable storeA ∧
      (storeA.stream "a" (VersionSelect.From 2) =
          ((streamOf storeA "a").filter fun evt => decide (2 ≤ evt.version)).map Except.ok ∧
        List.Pairwise (· < ·)
          (((streamOf storeA "a").filter fun evt => decide (2 ≤ evt.version)).map
            Persisted.version) ∧
        storeA.stream "a" (VersionSelect.From (lastStreamVersion storeA "a" + 1)) = []) :=
  ⟨Reachable.step emptyStore "a" StreamVersionExpected.Any ["x", "y"] Reachable.empty,
    stream_from_subsequence storeA
      (Reachable.step emptyStore "a" StreamVersionExpected.Any ["x", "y"] Reachable.empty)
      "a" 2⟩

/-- C6: for every store state and every stream identifier whose stored event
list is empty — in particular any identifier to which no event was ever
successfully appended, since appends only ever add events — `stream(id, All)`
yields the empty sequence, not an error. -/
theorem stream_of_eventless_id_empty {Id E : Type} [ToString Id]
    (s : InMemoryEventStore Id E) (id : Id) (h : streamOf s (toString id) = []) :
    s.stream id VersionSelect.All = [] := by
  rw [stream_all_eq, h]
  rfl

theorem stream_of_eventless_id_empty_witness :
    streamOf storeA "b" = [] ∧ storeA.stream "b" VersionSelect.All = [] :=
  ⟨by decide, stream_of_eventless_id_empty storeA "b" (by decide)⟩

/-- C7 counterexample: the claim "two appends with the same exact-version
precondition must not both succeed, and at most one may observe success"
fails for empty batches. The store's write lock serializes concurrent
appends, and two serialized appends to "s" with precondition `Exact 0` and
empty event lists both return success. -/
theorem serialized_empty_appends_both_succeed :
    isOk (emptyStore.append "s" (StreamVersionExpected.Exact 0) ([] : List String)).1 =
        true ∧
      isOk ((emptyStore.append "s" (StreamVersionExpected.Exact 0)
          ([] : List String)).2.append "s" (StreamVersionExpected.Exact 0)
          ([] : List String)).1 = true := by decide

/-- C7 amended: two appends to the same stream with the same exact-version
precondition, each carrying at least one event, cannot both succeed —
concurrent appends execute in some sequential order under the store's write
lock, and whichever runs first moves the last version past `V`, so the other
fails its precondition. -/
theorem exact_appends_not_both_ok {Id E : Type} [ToString Id] (s : InMemoryEventStore Id E)
    (id : Id) (V : Nat) (events1 events2 : List E)
    (h1 : events1 ≠ []) (h2 : events2 ≠ []) :
    ¬ (isOk (s.append id (StreamVersionExpected.Exact V) events1).1 = true ∧
        isOk ((s.append id (StreamVersionExpected.Exact V) events1).2.append id
          (StreamVersionExpected.Exact V) events2).1 = true) := by
  rintro ⟨hk1, hk2⟩
  by_cases hv : lastStreamVersion s (toString id) = V
  · have hp : versionCheckPasses (lastStreamVersion s (toString id))
        (StreamVersionExpected.Exact V) = true := by
      simp [versionCheckPasses, hv]
    obtain ⟨hf1, hf2, hf3⟩ :=
      append_ok_facts s id (StreamVersionExpected.Exact V) events1 hp h1
    have hpos : 0 < events1.length := List.length_pos.mpr h1
    have hne2 : lastStreamVersion (s.append id (StreamVersionExpected.Exact V) events1).2
        (toString id) ≠ V := by
      rw [hf3, hv]
      omega
    rw [append_eq_conflict _ id V events2 hne2] at hk2
    simp [isOk] at hk2
  · rw [append_eq_conflict s id V events1 hv] at hk1
    simp [isOk] at hk1

theorem exact_appends_not_both_ok_witness :
    ((["x"] : List String) ≠ [] ∧ (["y"] : List String) ≠ []) ∧
      ¬ (isOk (emptyStore.append "s" (StreamVersionExpected.Exact 0) ["x"]).1 = true ∧
          isOk ((emptyStore.append "s" (StreamVersionExpected.Exact 0) ["x"]).2.append "s"
            (StreamVersionExpected.Exact 0) ["y"]).1 = true) :=
  ⟨⟨by decide, by decide⟩,
    exact_appends_not_both_ok emptyStore "s" 0 ["x"] ["y"] (by decide) (by decide)⟩

/-- C8 counterexample: the process-wide counter is never incremented by the
backend's operations. After a successful append on the default store,
`global_offset` still holds its initial value 0 — it did not increase. -/
theorem global_offset_never_incremented :
    (emptyStore.append "a" StreamVersionExpected.Any ["e"]).2.global_offset =
        emptyStore.global_offset ∧
      (emptyStore.append "a" StreamVersionExpected.Any ["e"]).2.global_offset = 0 ∧
      ¬ emptyStore.global_offset <
          (emptyStore.append "a" StreamVersionExpected.Any ["e"]).2.global_offset := by
  refine ⟨rfl, rfl, ?_⟩
  decide

/-- C8 amended: the in-memory backend carries the process-wide counter field
`global_offset` alongside the per-stream versions, but no operation reads or
writes it: `append` leaves it unchanged, and the outcomes of `stream` and
`append` (returned value and resulting stream map) are the same for any value
of the counter — in particular it takes no part in conflict detection or in
the version values assigned to persisted events. -/
theorem global_offset_inert {Id E : Type} [ToString Id] (s : InMemoryEventStore Id E)
    (n : Nat) (id : Id) (vc : StreamVersionExpected) (events : List E)
    (select : VersionSelect) :
    (s.append id vc events).2.global_offset = s.global_offset ∧
      (InMemoryEventStore.mk n s.backend).stream id select = s.stream id select ∧
      ((InMemoryEventStore.mk n s.backend).append id vc events).1 =
        (s.append id vc events).1 ∧
      ((InMemoryEventStore.mk n s.backend).append id vc events).2.backend =
        (s.append id vc events).2.backend := by
  have hoff : (s.append id vc events).2.global_offset = s.global_offset := by
    cases hvc : versionCheckPasses (lastStreamVersion s (toString id)) vc with
    | true => rw [append_eq_unchecked s id vc events hvc]; rfl
    | false =>
      cases vc with
      | Any => simp [versionCheckPasses] at hvc
      | Exact v =>
        have hne : lastStreamVersion s (toString id) ≠ v := by
          simpa [versionCheckPasses] using hvc
        rw [append_eq_conflict s id v events hne]
  refine ⟨hoff, rfl, ?_⟩
  cases hvc : versionCheckPasses (lastStreamVersion s (toString id)) vc with
  | true =>
    rw [append_eq_unchecked s id vc events hvc,
      append_eq_unchecked (InMemoryEventStore.mk n s.backend) id vc events hvc]
    exact ⟨rfl, rfl⟩
  | false =>
    cases vc with
    | Any => simp [versionCheckPasses] at hvc
    | Exact v =>
      have hne : lastStreamVersion s (toString id) ≠ v := by
        simpa [versionCheckPasses] using hvc
      rw [append_eq_conflict s id v events hne,
        append_eq_conflict (InMemoryEventStore.mk n s.backend) id v events hne]
      exact ⟨rfl, rfl⟩

/-- C9: the reference backend's read error type `Infallible` is uninhabited,
every element yielded by `stream` is an `Ok` value (the whole result is a
mapped list of `Except.ok`), and the only error `append` can return is a
`ConflictError` value. -/
theorem reference_backend_error_taxonomy :
    (∀ e : Infallible, False) ∧
      (∀ (Id E : Type) (inst : ToString Id) (s : InMemoryEventStore Id E) (id : Id)
        (select : VersionSelect),
          ∃ evts : PersistedEvents Id E, s.stream id select = evts.map Except.ok) ∧
      (∀ (Id E : Type) (inst : ToString Id) (s : InMemoryEventStore Id E) (id : Id)
        (vc : StreamVersionExpected) (events : List E),
          (∃ v : Nat, (s.append id vc events).1 = Except.ok v) ∨
            (∃ e : ConflictError, (s.append id vc events).1 = Except.error e)) := by
  refine ⟨?_, ?_, ?_⟩
  · intro e
    exact nomatch e
  · intro Id E inst s id select
    exact ⟨_, stream_eq_filter s id select⟩
  · intro Id E inst s id vc events
    cases hr : (s.append id vc events).1 with
    | ok v => exact Or.inl ⟨v, rfl⟩
    | error e => exact Or.inr ⟨e, rfl⟩

/-- C10: appending an empty batch with a satisfied (or absent) precondition
returns `Version 0` regardless of the stream's current last version, leaves
every stream's stored content unchanged, and materializes an (empty) entry
for the id in the backend mapping when the stream was previously absent. -/
theorem append_empty_batch {Id E : Type} [ToString Id] (s : InMemoryEventStore Id E)
    (id : Id) (vc : StreamVersionExpected)
    (hp : versionCheckPasses (lastStreamVersion s (toString id)) vc = true) :
    (s.append id vc ([] : List E)).1 = Except.ok 0 ∧
      hmGet (s.append id vc ([] : List E)).2.backend.event_streams (toString id) =
        some (streamOf s (toString id)) ∧
      ∀ k : String, k ≠ toString id →
        hmGet (s.append id vc ([] : List E)).2.backend.event_streams k =
          hmGet s.backend.event_streams k := by
  rw [append_eq_unchecked s id vc ([] : List E) hp]
  refine ⟨rfl, ?_, ?_⟩
  · rw [appendUnchecked_snd_streams, hmGet_entryAppend_self]
    rw [show mkPersisted id (lastStreamVersion s (toString id)) ([] : List E) =
      ([] : PersistedEvents Id E) from rfl]
    rw [List.append_nil]
    rfl
  · intro k hk
    rw [appendUnchecked_snd_streams, hmGet_entryAppend_ne _ _ _ _ hk]

theorem append_empty_batch_witness :
    versionCheckPasses (lastStreamVersion storeA "a") StreamVersionExpected.Any = true ∧
      ((storeA.append "a" StreamVersionExpected.Any ([] : List String)).1 = Except.ok 0 ∧
        hmGet (storeA.append "a" StreamVersionExpected.Any
            ([] : List String)).2.backend.event_streams "a" = some (streamOf storeA "a") ∧
        ∀ k : String, k ≠ "a" →
          hmGet (storeA.append "a" StreamVersionExpected.Any
              ([] : List String)).2.backend.event_streams k =
            hmGet storeA.backend.event_streams k) :=
  ⟨rfl, append_empty_batch storeA "a" StreamVersionExpected.Any rfl⟩

end Eventually
